import Mathlib

/-!
Verification of the CodeWiki extraction-and-partitioning core.

This file shallowly embeds the dependency-graph utilities
(`codewiki/src/be/dependency_analyzer/topo_sort.py`) and the module
partitioner (`codewiki/src/be/cluster_modules.py`) and proves or refutes
the frozen behavioural claims about them.

Modelling conventions:
- A Python `Dict[str, Set[str]]` becomes an association list
  `List (String × List String)`; key order models dict insertion order and
  the element order of each adjacency list models one concrete set
  iteration order.
- Machine integers are `Nat` (or `Int` where Python values can go
  negative); no overflow is possible at the sizes involved.
- Recursive Python functions are given explicit fuel; every theorem either
  holds for all fuel values or fixes a concrete, sufficient fuel.
-/

/-- A dependency graph: node id to its dependency list.  An entry
`(a, bs)` means `a` depends on every node of `bs` (edge a -> b). -/
abbrev Graph := List (String × List String)

/-- Adjacency lookup, `graph.get(node, set())` in the source: the first
entry with the given key, or the empty set for a missing key. -/
def adjOf (g : Graph) (n : String) : List String :=
  (g.lookup n).getD []

/-- The node ids of a graph, in dict order. -/
def keysOf (g : Graph) : List String :=
  g.map Prod.fst

/-- Total number of edges (sum of adjacency-list lengths). -/
def edgeCount (g : Graph) : Nat :=
  (g.map (fun e => e.2.length)).sum

/-! ### detect_cycles (Tarjan's algorithm), topo_sort.py lines 18-76 -/

/-- Mutable state of Tarjan's algorithm in `detect_cycles`: the index
counter, the `index` and `lowlink` maps, the node stack (head = top), the
`onstack` set and the accumulated list of reported SCCs. -/
structure TarjanSt where
  counter : Nat
  index : List (String × Nat)
  lowlink : List (String × Nat)
  stack : List String
  onstack : List String
  result : List (List String)
deriving Repr

def idxOfNode (st : TarjanSt) (n : String) : Nat :=
  (st.index.lookup n).getD 0

def lowOfNode (st : TarjanSt) (n : String) : Nat :=
  (st.lowlink.lookup n).getD 0

def setLow (st : TarjanSt) (n : String) (v : Nat) : TarjanSt :=
  { st with lowlink := (n, v) :: st.lowlink }

/-- Pop the stack down to and including `node`, collecting the popped
nodes in pop order (the SCC) and returning the remaining stack. -/
def popToNode (node : String) : List String → List String → List String × List String
  | [], acc => (acc, [])
  | h :: t, acc => if h = node then (acc ++ [h], t) else popToNode node t (acc ++ [h])

/-- The root check at the end of `strongconnect`: if `lowlink == index`,
pop an SCC and report it when it has more than one member. -/
def sccPhase (node : String) (st : TarjanSt) : TarjanSt :=
  if lowOfNode st node = idxOfNode st node then
    let (scc, rest) := popToNode node st.stack []
    { st with
      stack := rest
      onstack := st.onstack.filter (fun x => !scc.contains x)
      result := if scc.length > 1 then st.result ++ [scc] else st.result }
  else st

/-- `strongconnect`, fueled: one unit of fuel per recursion level. -/
def strongconnect (g : Graph) : Nat → String → TarjanSt → TarjanSt
  | 0, _, st => st
  | fuel + 1, node, st =>
    let st := { st with
      index := (node, st.counter) :: st.index
      lowlink := (node, st.counter) :: st.lowlink
      counter := st.counter + 1
      stack := node :: st.stack
      onstack := node :: st.onstack }
    let st := (adjOf g node).foldl
      (fun s succ =>
        if (s.index.lookup succ).isNone then
          let s := strongconnect g fuel succ s
          setLow s node (Nat.min (lowOfNode s node) (lowOfNode s succ))
        else if s.onstack.contains succ then
          setLow s node (Nat.min (lowOfNode s node) (idxOfNode s succ))
        else s) st
    sccPhase node st

/-- Fuel that always suffices for `strongconnect`: the recursion indexes a
new node at every level, so its depth is bounded by the node count. -/
def tarjanFuel (g : Graph) : Nat :=
  g.length + (g.map (fun e => e.2.length)).sum + 1

/-- `detect_cycles(graph)`: visit each key not yet indexed; return the
strongly connected components with more than one member, in detection
order (topo_sort.py lines 18-76). -/
def detect_cycles (g : Graph) : List (List String) :=
  let st := (keysOf g).foldl
    (fun st n =>
      if (st.index.lookup n).isNone then strongconnect g (tarjanFuel g) n st else st)
    ⟨0, [], [], [], [], []⟩
  st.result

/-! ### resolve_cycles, topo_sort.py lines 78-119 -/

/-- Remove `b` from the adjacency list of the first entry keyed `a`
(`new_graph[current].remove(next_node)` on a dict with unique keys). -/
def removeEdge : Graph → String → String → Graph
  | [], _, _ => []
  | (k, ds) :: rest, a, b =>
    if k = a then (k, ds.erase b) :: rest else (k, ds) :: removeEdge rest a b

/-- Process one detected cycle: walk consecutive pairs of its member list
and delete the first pair that is still an edge, then stop
(topo_sort.py lines 110-117). -/
def breakCycle (g : Graph) : List String → Graph
  | [] => g
  | [_] => g
  | a :: b :: rest =>
    if (adjOf g a).contains b then removeEdge g a b else breakCycle g (b :: rest)

/-- `resolve_cycles(graph)`: detect SCCs; with no cycles return the graph
unchanged, otherwise delete at most one edge per reported cycle
(topo_sort.py lines 78-119). -/
def resolve_cycles (g : Graph) : Graph :=
  let cycles := detect_cycles g
  if cycles.isEmpty then g
  else cycles.foldl breakCycle g

/-! ### topological_sort, topo_sort.py lines 121-169 -/

def bumpDeg (d : List (String × Int)) (k : String) (delta : Int) : List (String × Int) :=
  d.map (fun e => if e.1 = k then (e.1, e.2 + delta) else e)

def degOf (d : List (String × Int)) (k : String) : Int :=
  (d.lookup k).getD 0

/-- The body of the Kahn while-loop: pop the queue head, append it to the
result, then scan the graph entries in order, decrementing the counter of
every entry whose dependency list contains the popped node and enqueueing
entries whose counter reaches zero (topo_sort.py lines 151-160). -/
def kahnLoop (ag : Graph) : Nat → List String → List (String × Int) → List String → List String
  | 0, _, _, res => res
  | _ + 1, [], _, res => res
  | fuel + 1, q :: qs, deg, res =>
    let step := ag.foldl
      (fun (acc : List (String × Int) × List String) e =>
        if e.2.contains q then
          let d := bumpDeg acc.1 e.1 (-1)
          if degOf d e.1 = 0 then (d, acc.2 ++ [e.1]) else (d, acc.2)
        else acc)
      (deg, [])
    kahnLoop ag fuel (qs ++ step.2) step.1 (res ++ [q])

/-- `topological_sort(graph)` (topo_sort.py lines 121-169): resolve
cycles, count for every node the number of nodes depending on it, run the
queue loop, and if not all nodes were emitted fall back to the raw key
list; otherwise return the reversed emission order. -/
def topological_sort (g : Graph) : List String :=
  let ag := resolve_cycles g
  let deg0 : List (String × Int) := ag.map (fun e => (e.1, (0 : Int)))
  let deg := ag.foldl
    (fun d e => e.2.foldl
      (fun d dep => if (d.lookup dep).isSome then bumpDeg d dep 1 else d) d)
    deg0
  let queue := (ag.filter (fun e => degOf deg e.1 = 0)).map Prod.fst
  let res := kahnLoop ag (ag.length * (edgeCount ag + ag.length + 1) + 1) queue deg []
  if res.length ≠ ag.length then keysOf ag
  else res.reverse

/-! ### String primitives

The Lean core `String` functions for splitting, case folding and
trimming are defined by well-founded recursion over byte positions and do
not reduce inside the kernel, so the Python string operations the sources
use are modelled directly over character lists with structural (fueled)
recursion.  Semantics follow Python: `split`/`replace` scan left to right
over non-overlapping occurrences, comparison is code-point lexicographic,
and case folding and whitespace follow the ASCII rules (the inputs at
hand are ASCII identifiers). -/

def chListPrefix : List Char → List Char → Bool
  | _, [] => true
  | [], _ :: _ => false
  | h :: t, p :: ps => h == p && chListPrefix t ps

def chListContains : List Char → List Char → Bool
  | [], pat => pat.isEmpty
  | h :: t, pat => chListPrefix (h :: t) pat || chListContains t pat

/-- Python `pat in s` on strings. -/
def strContains (s pat : String) : Bool :=
  chListContains s.data pat.data

def chListLt : List Char → List Char → Bool
  | [], [] => false
  | [], _ :: _ => true
  | _ :: _, [] => false
  | a :: as, b :: bs =>
    if a.toNat < b.toNat then true
    else if b.toNat < a.toNat then false
    else chListLt as bs

/-- Python `a < b` on strings: code-point lexicographic. -/
def strLt (a b : String) : Bool :=
  chListLt a.data b.data

def pySplitOnAux (sep : List Char) : Nat → List Char → List Char → List (List Char)
  | 0, l, cur => [cur.reverse ++ l]
  | _ + 1, [], cur => [cur.reverse]
  | fuel + 1, h :: t, cur =>
    if chListPrefix (h :: t) sep then
      cur.reverse :: pySplitOnAux sep fuel ((h :: t).drop sep.length) []
    else pySplitOnAux sep fuel t (h :: cur)

/-- Python `s.split(sep)` for a nonempty separator. -/
def pySplitOn (s sep : String) : List String :=
  if sep.data.isEmpty then [s]
  else (pySplitOnAux sep.data (s.data.length + 1) s.data []).map (fun l => ⟨l⟩)

def pyReplaceAux (pat repl : List Char) : Nat → List Char → List Char
  | 0, l => l
  | _ + 1, [] => []
  | fuel + 1, h :: t =>
    if chListPrefix (h :: t) pat then
      repl ++ pyReplaceAux pat repl fuel ((h :: t).drop pat.length)
    else h :: pyReplaceAux pat repl fuel t

/-- Python `s.replace(pat, repl)` for a nonempty pattern. -/
def pyReplace (s pat repl : String) : String :=
  if pat.data.isEmpty then s
  else ⟨pyReplaceAux pat.data repl.data (s.data.length + 1) s.data⟩

/-- Python `s.lower()` (ASCII). -/
def pyToLower (s : String) : String :=
  ⟨s.data.map Char.toLower⟩

/-- Python `s.strip()`. -/
def pyTrim (s : String) : String :=
  ⟨(((s.data.dropWhile Char.isWhitespace).reverse.dropWhile
    Char.isWhitespace).reverse)⟩

/-- Python `s.startswith(pat)`. -/
def pyStartsWith (s pat : String) : Bool :=
  chListPrefix s.data pat.data

/-- Python `s.endswith(pat)`. -/
def pyEndsWith (s pat : String) : Bool :=
  chListPrefix s.data.reverse pat.data.reverse

/-! ### Sorting helpers

Python `list.sort` / `sorted` are stable.  `pyInsertSort lt` is a stable
insertion sort: an element is placed after every earlier element that does
not compare strictly after it, exactly as Timsort orders ties. -/

def pyInsert (lt : α → α → Bool) (x : α) : List α → List α
  | [] => [x]
  | y :: ys => if lt x y then x :: y :: ys else y :: pyInsert lt x ys

def pyInsertSort (lt : α → α → Bool) (l : List α) : List α :=
  l.foldl (fun acc x => pyInsert lt x acc) []

/-- `sorted(...)` over strings, ascending. -/
def sortStrings (l : List String) : List String :=
  pyInsertSort strLt l

/-- `scored_nodes.sort(key=lambda x: -x[1])`: stable descending by score. -/
def sortByScoreDesc (l : List (String × Nat)) : List (String × Nat) :=
  pyInsertSort (fun a b => decide (b.2 < a.2)) l

/-! ### dependency_first_dfs, topo_sort.py lines 171-237 -/

/-- DFS state: the `visited` set and the `result` list. -/
abbrev DfsSt := List String × List String

/-- The inner `dfs` closure (topo_sort.py lines 214-224), fueled: skip a
visited node, otherwise mark it visited, recurse into its dependencies in
sorted order, then append it to the result. -/
def dfsVisit (g : Graph) : Nat → String → DfsSt → DfsSt
  | 0, _, st => st
  | fuel + 1, node, st =>
    if st.1.contains node then st
    else
      let st1 : DfsSt := (node :: st.1, st.2)
      let st2 := (sortStrings (adjOf g node)).foldl
        (fun s dep => dfsVisit g fuel dep s) st1
      (st2.1, st2.2 ++ [node])

/-- Root selection (topo_sort.py lines 191-207): the keys no entry
depends on, or the first key when there are none. -/
def dfsRoots (ag : Graph) : List String :=
  let hasIncoming := fun n => ag.any (fun e => e.2.contains n)
  let roots := (keysOf ag).filter (fun n => !hasIncoming n)
  if roots.isEmpty then (keysOf ag).take 1 else roots

/-- The root traversal (topo_sort.py lines 226-228); the recursion depth
of `dfs` is bounded by the number of distinct visited nodes, so
`ag.length + 1` fuel is always enough. -/
def dfsPhase1 (ag : Graph) : DfsSt :=
  (sortStrings (dfsRoots ag)).foldl
    (fun s r => dfsVisit ag (ag.length + 1) r s) ([], [])

/-- The safety net (topo_sort.py lines 230-235): when some nodes were
missed, visit every unvisited key in sorted order. -/
def dfsPhase2 (ag : Graph) : DfsSt :=
  let st := dfsPhase1 ag
  if st.2.length ≠ ag.length then
    (sortStrings (keysOf ag)).foldl
      (fun s n => if s.1.contains n then s else dfsVisit ag (ag.length + 1) n s) st
  else st

/-- `dependency_first_dfs(graph)` (topo_sort.py lines 171-237): resolve
cycles, DFS from the sorted root nodes, then the safety net. -/
def dependency_first_dfs (g : Graph) : List String :=
  (dfsPhase2 (resolve_cycles g)).2

/-! ### Component model and candidate selection, topo_sort.py lines 271-497 -/

/-- Modelled from the spec: the `Node` component record of
`codewiki/src/be/dependency_analyzer/models/core.py`, which is not part of
the sources under study; spec section 3 lists its fields (`name`, `kind`,
`source_text`, `has_doc`/`doc_text`, `relative_path`, ...).  Only the
fields the studied code reads are carried; every `hasattr` probe in the
source therefore succeeds. -/
structure Node where
  name : String
  component_type : String
  has_docstring : Bool
  docstring : String
  source_code : String
  relative_path : String
deriving Repr, DecidableEq

/-- A component registry: id to record, in dict order. -/
abbrev Registry := List (String × Node)

/-- `calculate_component_importance(comp_id, components, graph)`
(topo_sort.py lines 343-399). -/
def calculate_component_importance (comp_id : String) (components : Registry)
    (graph : Graph) : Nat :=
  match components.lookup comp_id with
  | none => 0
  | some comp =>
    let used_by_count := (graph.filter (fun e => e.2.contains comp_id)).length
    let score := Nat.min (used_by_count * 5) 30
    let score :=
      if ["main", "__main__", "run", "start", "execute"].contains comp.name then score + 20
      else if !pyStartsWith comp.name "_" then score + 10
      else score
    let score :=
      if comp.has_docstring then score + 15
      else if comp.docstring ≠ "" then score + 15
      else score
    let lines := (pySplitOn comp.source_code "\n").length
    let score :=
      if 10 ≤ lines ∧ lines ≤ 200 then score + 10
      else if 5 ≤ lines ∧ lines < 10 then score + 5
      else score
    let score :=
      if ["class", "interface"].contains comp.component_type then score + 10
      else if ["struct", "enum"].contains comp.component_type then score + 5
      else score
    Nat.min score 100

/-- Number of components of a given type (`Counter` in
`analyze_component_distribution`, topo_sort.py lines 271-302). -/
def oopCount (components : Registry) : Nat :=
  (components.filter (fun e =>
    ["class", "interface", "struct", "enum", "record", "abstract class"].contains
      e.2.component_type)).length

def funcCount (components : Registry) : Nat :=
  (components.filter (fun e =>
    ["function", "async_function", "method"].contains e.2.component_type)).length

/-- `determine_valid_types(components)` (topo_sort.py lines 305-340).  The
float comparison `oop_ratio < 0.1` is modelled exactly as
`10 * oop_count < total`; at repository sizes the double rounding of
`oop_count / total` cannot cross the threshold. -/
def determine_valid_types (components : Registry) : List String :=
  let oop := oopCount components
  let func := funcCount components
  let total := components.length
  let base := ["class", "interface", "struct", "enum", "record", "abstract class",
    "annotation"]
  if oop = 0 then base ++ ["function", "async_function"]
  else if 10 * oop < total ∧ 20 < func then base ++ ["function", "async_function"]
  else if oop < 5 ∧ 50 < func then base ++ ["function", "async_function"]
  else base

/-- One candidate of `filter_and_score_nodes` (topo_sort.py lines
425-465): `.__init__` aliasing, the blank and error-keyword filters
(custom exception classes kept), then type filtering and scoring. -/
def scoreCandidate (components : Registry) (valid_types : List String)
    (ag : Graph) (node : String) : Option (String × Nat) :=
  let display :=
    if pyEndsWith node ".__init__" then pyReplace node ".__init__" "" else node
  if pyTrim node = "" then none
  else
    let lower := pyToLower node
    let keyworded := ["error", "exception", "failed", "invalid"].any
      (fun err => strContains lower err)
    let keptDespiteKeyword :=
      strContains lower "exception" &&
        match components.lookup node with
        | some c => c.component_type == "class"
        | none => false
    if keyworded && !keptDespiteKeyword then none
    else
      match components.lookup node with
      | some comp =>
        if valid_types.contains comp.component_type then
          some (display, calculate_component_importance node components ag)
        else none
      | none =>
        match components.lookup display with
        | some comp =>
          if valid_types.contains comp.component_type then
            some (display, calculate_component_importance display components ag)
          else none
        | none => none

def filter_and_score_nodes (components : Registry) (valid_types : List String)
    (ag : Graph) (candidates : List String) : List (String × Nat) :=
  candidates.filterMap (scoreCandidate components valid_types ag)

/-- The first scoring round of `get_leaf_nodes`: every key of the cycle-
resolved graph is a candidate. -/
def glnFirstScored (g : Graph) (components : Registry) : List (String × Nat) :=
  let ag := resolve_cycles g
  filter_and_score_nodes components (determine_valid_types components) ag (keysOf ag)

/-- The pruning step (topo_sort.py lines 475-477): discard every node that
appears in some adjacency list, keeping only nodes nobody depends on. -/
def glnPruned (g : Graph) : List String :=
  let ag := resolve_cycles g
  (keysOf ag).filter (fun n => !ag.any (fun e => e.2.contains n))

/-- The re-scoring round after pruning (topo_sort.py line 480). -/
def glnPrunedScored (g : Graph) (components : Registry) : List (String × Nat) :=
  let ag := resolve_cycles g
  filter_and_score_nodes components (determine_valid_types components) ag (glnPruned g)

/-- `get_leaf_nodes(graph, components)` (topo_sort.py lines 402-497). -/
def get_leaf_nodes (g : Graph) (components : Registry) : List String :=
  let scored := glnFirstScored g components
  let scored :=
    if 400 ≤ scored.length then
      let rescored := glnPrunedScored g components
      if 400 ≤ rescored.length then (sortByScoreDesc rescored).take 400
      else rescored
    else scored
  if scored.isEmpty then []
  else (sortByScoreDesc scored).map Prod.fst

/-! ### Module partitioner, cluster_modules.py -/

/-- A parsed oracle payload: the Python values `safe_parse_llm_response`
can produce (strings, numbers, booleans, None, lists, dicts). -/
inductive PyVal where
  | str (s : String)
  | num (n : Int)
  | bool (b : Bool)
  | nil
  | list (xs : List PyVal)
  | dict (kvs : List (String × PyVal))

/-- A validated module-tree node: the `path` field (deleted for non-root
levels before merging), the component id list and the children map. -/
inductive MNode where
  | mk (path : Option PyVal) (components : List String) (children : List (String × MNode))

def MNode.path : MNode → Option PyVal
  | .mk p _ _ => p

def MNode.components : MNode → List String
  | .mk _ c _ => c

def MNode.children : MNode → List (String × MNode)
  | .mk _ _ c => c

/-- A module tree level: module name to node, in dict order. -/
abbrev MTree := List (String × MNode)

/-- One element of the list comprehension in `validate_module_tree`:
`isinstance(comp, str) and comp in components`. -/
def validId (components : Registry) : PyVal → Option String
  | .str s => if (components.lookup s).isSome then some s else none
  | _ => none

def validComponents (components : Registry) (kvs : List (String × PyVal)) :
    List String :=
  let module_components :=
    match kvs.lookup "components" with
    | some (.list xs) => xs
    | _ => []
  module_components.filterMap (validId components)

/-- One iteration of the `validate_module_tree` loop. -/
def validateStep (components : Registry) (acc : MTree) (e : String × PyVal) :
    MTree :=
  match e.2 with
  | .dict kvs =>
    let valid := validComponents components kvs
    if valid.isEmpty then acc
    else acc ++ [(e.1, .mk (some ((kvs.lookup "path").getD (.str ""))) valid [])]
  | _ => acc

/-- `validate_module_tree(module_tree, components)` (cluster_modules.py
lines 82-122): skip entries whose info is not a dict; coerce a non-list
`components` field to the empty list; keep only string ids present in the
registry; drop a module left with no valid component; surviving modules
get their `path` (default `""`), the valid ids and empty children. -/
def validate_module_tree (module_tree : List (String × PyVal))
    (components : Registry) : MTree :=
  module_tree.foldl (validateStep components) []

/-- `format_potential_core_components(leaf_nodes, components)`
(cluster_modules.py lines 392-419): drop unknown ids, group by relative
path, iterate the groups in sorted-path order and render the id list and
the id-plus-source listing. -/
def format_potential_core_components (leaf_nodes : List String)
    (components : Registry) : String × String :=
  let valid := leaf_nodes.filter (fun ln => (components.lookup ln).isSome)
  let pathOf := fun ln => ((components.lookup ln).map Node.relative_path).getD ""
  let files := sortStrings ((valid.map pathOf).eraseDups)
  files.foldl
    (fun acc file =>
      let members := valid.filter (fun ln => pathOf ln == file)
      let header := "# " ++ file ++ "\n"
      members.foldl
        (fun acc ln =>
          let comp := (components.lookup ln).getD ⟨"", "", false, "", "", ""⟩
          (acc.1 ++ "\t" ++ ln ++ "\n",
           acc.2 ++ "\t" ++ ln ++ "\n" ++ comp.source_code ++ "\n"))
        (acc.1 ++ header, acc.2 ++ header))
    ("", "")

/-- Modelled from the spec: `codewiki.src.config.Config` is not among the
sources under study; spec section 6 lists the configuration surface the
core consumes: a token budget per module, a maximum recursion depth and
the oracle model name.  `cluster_modules` reads only
`max_token_per_module` and `cluster_model`. -/
structure Config where
  max_token_per_module : Nat
  max_depth : Nat
  cluster_model : String

/-- Processing of one oracle response inside the retry loop
(cluster_modules.py lines 469-491): require both delimiter tags, take the
text between them, parse it, require a dict, and validate the tree.
`none` means the attempt failed before `module_tree` was assigned;
`some v` means `validate_module_tree` produced `v` (possibly empty). -/
def attemptStep (parse : String → Option PyVal) (components : Registry)
    (resp : String) : Option MTree :=
  if (pySplitOn resp "<GROUPED_COMPONENTS>").length ≤ 1 ∨
      (pySplitOn resp "</GROUPED_COMPONENTS>").length ≤ 1 then none
  else
    let content :=
      (pySplitOn ((pySplitOn resp "<GROUPED_COMPONENTS>").getD 1 "")
        "</GROUPED_COMPONENTS>").getD 0 ""
    match parse content with
    | some (.dict kvs) => some (validate_module_tree kvs components)
    | _ => none

/-- One oracle call as seen by an attempt: an exception from `call_llm`
(caught by the per-attempt handler) behaves like a failed parse. -/
def oracleOutcome (parse : String → Option PyVal) (components : Registry) :
    Except String String → Option MTree
  | .error _ => none
  | .ok resp => attemptStep parse components resp

/-- The retry loop of `cluster_modules` (lines 461-501): up to
`max_retries + 1` attempts, each making one oracle call (the call counter
is threaded through); a nonempty validated tree breaks the loop, an empty
validated tree is recorded and retried, any other failure leaves the
recorded value unchanged. -/
def tryLoop (oracle : Nat → String → Except String String)
    (parse : String → Option PyVal) (components : Registry) (prompt : String) :
    Nat → Nat → Option MTree → Option MTree × Nat
  | 0, idx, mt => (mt, idx)
  | n + 1, idx, mt =>
    match oracleOutcome parse components (oracle idx prompt) with
    | none => tryLoop oracle parse components prompt n (idx + 1) mt
    | some v =>
      if v.isEmpty then tryLoop oracle parse components prompt n (idx + 1) (some v)
      else (some v, idx + 1)

/-- `del module_info["path"]` before a non-root merge. -/
def stripPath : MNode → MNode
  | .mk _ cs ch => .mk none cs ch

/-- The recursion loop over the validated level (cluster_modules.py lines
527-542): each child's component list is re-clustered and stored as its
children, threading the oracle-call counter left to right. -/
def clusterChildren (step : List String → Nat → MTree × Nat) :
    MTree → Nat → MTree × Nat
  | [], idx => ([], idx)
  | (n, .mk p cs _) :: rest, idx =>
    let c := step cs idx
    let r := clusterChildren step rest c.2
    ((n, .mk p cs c.1) :: r.1, r.2)

/-- `cluster_modules(leaf_nodes, components, config, ..., max_retries)`
(cluster_modules.py lines 422-544), fueled by the recursion depth.  The
external collaborators are parameters: `tok` for the tiktoken
`count_tokens`, `parse` for `safe_parse_llm_response` (modelled from the
spec: the multi-strategy text parser of section 4.4, an adapter-boundary
concern), `mkPrompt` for the prompt text built by
`enhance_cluster_prompt_with_suggestions` (advisory text for the oracle),
and `oracle` for `call_llm`, indexed by the global call counter.  `isRoot`
tracks whether `current_module_tree` was empty (the root call), which is
the only level whose `path` fields are not deleted.  Returns the module
tree together with the final call counter. -/
def cluster_modules (tok : String → Nat) (parse : String → Option PyVal)
    (mkPrompt : List String → String)
    (oracle : Nat → String → Except String String) (components : Registry)
    (cfg : Config) (maxRetries : Nat) (fuel : Nat) (isRoot : Bool)
    (leaf_nodes : List String) (idx : Nat) : MTree × Nat :=
  match fuel with
  | 0 => ([], idx)
  | fuel + 1 =>
    let rendered := format_potential_core_components leaf_nodes components
    if tok rendered.2 ≤ cfg.max_token_per_module then ([], idx)
    else
      let prompt := mkPrompt leaf_nodes
      let attempt := tryLoop oracle parse components prompt (maxRetries + 1) idx none
      match attempt.1 with
      | none => ([], attempt.2)
      | some tree =>
        if tree.length ≤ 1 then ([], attempt.2)
        else
          let tree := if isRoot then tree else tree.map (fun e => (e.1, stripPath e.2))
          clusterChildren
            (fun ls i =>
              cluster_modules tok parse mkPrompt oracle components cfg maxRetries
                fuel false ls i)
            tree attempt.2
termination_by structural fuel

/-- The top level of a returned tree holds the children produced by the
first split; a nonempty `children` list on one of them is a grandchild of
the split candidate set. -/
def hasGrandchild (t : MTree) : Bool :=
  t.any (fun e => !e.2.children.isEmpty)

/-- Recursive module-tree validity: every node everywhere has a nonempty
component list whose ids all belong to the registry key list. -/
def treeValidB (keys : List String) : MTree → Bool
  | [] => true
  | (_, .mk _ cs ch) :: rest =>
    (!cs.isEmpty && cs.all (fun c => keys.contains c)) &&
      treeValidB keys ch && treeValidB keys rest

/-- Four registry components sharing one file, each with a 20-character
source text. -/
def demoComps : Registry :=
  [("a", Node.mk "a" "class" false "" "01234567890123456789" "f.py"),
   ("b", Node.mk "b" "class" false "" "01234567890123456789" "f.py"),
   ("c", Node.mk "c" "class" false "" "01234567890123456789" "f.py"),
   ("d", Node.mk "d" "class" false "" "01234567890123456789" "f.py")]

/-- A parse function standing for `safe_parse_llm_response` on the two
payloads the demo oracle emits: the first splits the four components into
two groups of two, the second splits the first group again. -/
def demoParse : String → Option PyVal := fun s =>
  if s = "P1" then
    some (.dict [("g1", .dict [("components", .list [.str "a", .str "b"])]),
                 ("g2", .dict [("components", .list [.str "c", .str "d"])])])
  else if s = "P2" then
    some (.dict [("ga", .dict [("components", .list [.str "a"])]),
                 ("gb", .dict [("components", .list [.str "b"])])])
  else none

/-- An oracle that proposes the first split on call 0 and the nested split
on call 1, then fails. -/
def demoOracle : Nat → String → Except String String := fun i _ =>
  if i = 0 then .ok ("<GROUPED_COMPONENTS>" ++ "P1" ++ "</GROUPED_COMPONENTS>")
  else if i = 1 then .ok ("<GROUPED_COMPONENTS>" ++ "P2" ++ "</GROUPED_COMPONENTS>")
  else .error "stop"

/-- A configuration whose maximum recursion depth is 1 and whose token
budget (with `tok` = string length) is exceeded by any two of the demo
components. -/
def demoCfg : Config := Config.mk 50 1 "m"

/-- The candidate-cap input family of claim C6: distinct ids built only
from the characters `c` and `x`, so the string filters of the selector can
be discharged symbolically. -/
def capName (i : Nat) : String :=
  ⟨'c' :: List.replicate i 'x'⟩

/-- A class component named `capName i`. -/
def capNode (i : Nat) : Node :=
  Node.mk (capName i) "class" false "" "" "f.py"

/-- A registry of 500 class components. -/
def capComps : Registry :=
  (List.range 500).map (fun i => (capName i, capNode i))

/-- The matching 500-node dependency graph with no edges. -/
def capGraph : Graph :=
  (List.range 500).map (fun i => (capName i, []))

/-! ### General lemmas about the embedded operations -/

theorem pyInsert_mem (lt : α → α → Bool) (x : α) (l : List α) :
    ∀ y, y ∈ pyInsert lt x l ↔ y = x ∨ y ∈ l := by
  induction l with
  | nil => simp [pyInsert]
  | cons h t ih =>
    intro y
    by_cases hc : lt x h
    · simp only [pyInsert, hc, if_pos, List.mem_cons]
    · simp only [pyInsert, hc, if_neg, Bool.false_eq_true, not_false_iff,
        List.mem_cons, ih y]
      tauto

theorem pyInsert_length (lt : α → α → Bool) (x : α) (l : List α) :
    (pyInsert lt x l).length = l.length + 1 := by
  induction l with
  | nil => rfl
  | cons h t ih =>
    by_cases hc : lt x h <;> simp [pyInsert, hc, ih]

theorem pyInsertSort_length (lt : α → α → Bool) (l : List α) :
    (pyInsertSort lt l).length = l.length := by
  suffices h : ∀ acc : List α,
      (l.foldl (fun acc x => pyInsert lt x acc) acc).length = acc.length + l.length by
    simpa [pyInsertSort] using h []
  induction l with
  | nil => simp
  | cons h t ih =>
    intro acc
    simp [ih, pyInsert_length]
    omega

/-- Descending-by-score sortedness of the stable sort used for
`scored_nodes.sort(key=lambda x: -x[1])`. -/
theorem pyInsert_score_sorted (x : String × Nat) (l : List (String × Nat))
    (h : l.Pairwise (fun a b => b.2 ≤ a.2)) :
    (pyInsert (fun a b => decide (b.2 < a.2)) x l).Pairwise (fun a b => b.2 ≤ a.2) := by
  induction l with
  | nil => simp [pyInsert]
  | cons hd t ih =>
    rw [List.pairwise_cons] at h
    by_cases hc : decide (hd.2 < x.2) = true
    · simp only [pyInsert, hc, if_pos]
      rw [List.pairwise_cons]
      refine ⟨?_, List.pairwise_cons.mpr h⟩
      intro b hb
      rcases List.mem_cons.mp hb with hb | hb
      · subst hb
        exact Nat.le_of_lt (of_decide_eq_true hc)
      · exact Nat.le_trans (h.1 b hb) (Nat.le_of_lt (of_decide_eq_true hc))
    · simp only [pyInsert, hc, if_neg, Bool.not_eq_true]
      rw [List.pairwise_cons]
      refine ⟨?_, ih h.2⟩
      intro b hb
      rcases (pyInsert_mem _ x t b).mp hb with hb | hb
      · subst hb
        have := of_decide_eq_false (Bool.not_eq_true _ ▸ hc)
        omega
      · exact h.1 b hb

theorem sortByScoreDesc_sorted (l : List (String × Nat)) :
    (sortByScoreDesc l).Pairwise (fun a b => b.2 ≤ a.2) := by
  suffices h : ∀ acc : List (String × Nat), acc.Pairwise (fun a b => b.2 ≤ a.2) →
      (l.foldl (fun acc x => pyInsert (fun a b => decide (b.2 < a.2)) x acc) acc).Pairwise
        (fun a b => b.2 ≤ a.2) by
    simpa [sortByScoreDesc, pyInsertSort] using h [] (by simp)
  induction l with
  | nil => simp
  | cons hd t ih =>
    intro acc hacc
    exact ih _ (pyInsert_score_sorted hd acc hacc)

theorem sortByScoreDesc_length (l : List (String × Nat)) :
    (sortByScoreDesc l).length = l.length :=
  pyInsertSort_length _ l

theorem sortStrings_mem (l : List String) (x : String) :
    x ∈ sortStrings l ↔ x ∈ l := by
  suffices h : ∀ acc : List String,
      ∀ y, y ∈ l.foldl (fun acc x => pyInsert strLt x acc) acc ↔
        y ∈ acc ∨ y ∈ l by
    simpa [sortStrings, pyInsertSort] using (h [] x)
  induction l with
  | nil => simp
  | cons hd t ih =>
    intro acc y
    rw [List.foldl_cons, ih, pyInsert_mem]
    simp [List.mem_cons]
    tauto

/-! ### Claims C1 and C2: graph-engine evaluations at failing inputs -/

/-- C1: claimed, for every acyclic graph, `topological_sort` orders every
dependency before its dependent.  The code violates this: on the acyclic
graph with the single edge A -> B the Kahn loop decrements the wrong
counters (the in-degree table counts dependents, but processing a node
decrements the counters of its dependents instead of its dependencies), so
B is never dequeued, the length check fails, and the fallback returns the
keys in dict order with the dependent A first. -/
theorem C1_topological_sort_violates_order_on_acyclic_input :
    detect_cycles [("A", ["B"]), ("B", [])] = [] ∧
    topological_sort [("A", ["B"]), ("B", [])] = ["A", "B"] := by
  constructor <;> rfl

/-- C2: claimed, `detect_cycles (resolve_cycles G)` is always empty.  On
the three-cycle A -> B -> C -> A the only SCC is reported in stack-pop
order [C, B, A], no consecutive pair of which is an edge, so
`resolve_cycles` removes nothing and returns the graph with its cycle
intact, contradicting its own docstring ("a new acyclic graph"). -/
theorem C2_resolve_cycles_leaves_three_cycle_unresolved :
    resolve_cycles [("A", ["B"]), ("B", ["C"]), ("C", ["A"])] =
      [("A", ["B"]), ("B", ["C"]), ("C", ["A"])] ∧
    detect_cycles (resolve_cycles [("A", ["B"]), ("B", ["C"]), ("C", ["A"])]) =
      [["C", "B", "A"]] := by
  constructor <;> rfl

/-! ### Claim C9: determinism of the candidate selector -/

/-- C9: the candidate selector is a pure function of the graph and the
registry: two invocations on identical inputs return identical candidate
lists, including the relative order of equal-score ties (the embedded
pipeline introduces no randomness; ties keep the stable-sort order of the
candidate ordering). -/
theorem C9_get_leaf_nodes_deterministic (g₁ g₂ : Graph) (c₁ c₂ : Registry)
    (hg : g₁ = g₂) (hc : c₁ = c₂) :
    get_leaf_nodes g₁ c₁ = get_leaf_nodes g₂ c₂ := by
  subst hg
  subst hc
  rfl

theorem C9_witness :
    ([("a", ["b"]), ("b", [])] : Graph) = [("a", ["b"]), ("b", [])] ∧
    ([("a", Node.mk "a" "class" false "" "" "f.py")] : Registry) =
      [("a", Node.mk "a" "class" false "" "" "f.py")] ∧
    get_leaf_nodes [("a", ["b"]), ("b", [])]
        [("a", Node.mk "a" "class" false "" "" "f.py")] =
      get_leaf_nodes [("a", ["b"]), ("b", [])]
        [("a", Node.mk "a" "class" false "" "" "f.py")] :=
  ⟨rfl, rfl, C9_get_leaf_nodes_deterministic _ _ _ _ rfl rfl⟩

/-! ### Claim C4: oracle retry exhaustion -/

theorem tryLoop_all_attempts_fail (oracle : Nat → String → Except String String)
    (parse : String → Option PyVal) (components : Registry) (prompt : String)
    (hfail : ∀ i s v, oracleOutcome parse components (oracle i s) = some v → v = []) :
    ∀ n idx mt, (mt = none ∨ mt = some []) →
      (tryLoop oracle parse components prompt n idx mt).2 = idx + n ∧
      ((tryLoop oracle parse components prompt n idx mt).1 = none ∨
        (tryLoop oracle parse components prompt n idx mt).1 = some []) := by
  intro n
  induction n with
  | zero =>
    intro idx mt hmt
    simp [tryLoop, hmt]
  | succ n ih =>
    intro idx mt hmt
    simp only [tryLoop]
    cases heq : oracleOutcome parse components (oracle idx prompt) with
    | none =>
      have h := ih (idx + 1) mt hmt
      refine ⟨?_, h.2⟩
      rw [h.1]
      omega
    | some v =>
      have hv := hfail idx prompt v heq
      subst hv
      simp only [List.isEmpty_nil, if_pos]
      have h := ih (idx + 1) (some []) (Or.inr rfl)
      refine ⟨?_, h.2⟩
      rw [h.1]
      omega

/-- C4: if every oracle attempt either raises (an `Except.error` from
`call_llm`, caught per attempt) or yields a response that does not parse
and validate into a nonempty mapping, then `cluster_modules` performs
exactly `max_retries + 1` oracle calls for the branch (the call counter
advances from `idx` to `idx + max_retries + 1`) and returns the empty
mapping; being a total function of its inputs, the model propagates no
exception. -/
theorem C4_retry_exhaustion_returns_empty (tok : String → Nat)
    (parse : String → Option PyVal) (mkPrompt : List String → String)
    (oracle : Nat → String → Except String String) (components : Registry)
    (cfg : Config) (maxRetries fuel idx : Nat) (isRoot : Bool)
    (leaf_nodes : List String)
    (hbudget : cfg.max_token_per_module <
      tok (format_potential_core_components leaf_nodes components).2)
    (hfail : ∀ i s v, oracleOutcome parse components (oracle i s) = some v → v = []) :
    cluster_modules tok parse mkPrompt oracle components cfg maxRetries (fuel + 1)
        isRoot leaf_nodes idx = ([], idx + (maxRetries + 1)) := by
  have hloop := tryLoop_all_attempts_fail oracle parse components
    (mkPrompt leaf_nodes) hfail (maxRetries + 1) idx none (Or.inl rfl)
  simp only [cluster_modules]
  rw [if_neg (Nat.not_le.mpr hbudget)]
  rcases hloop with ⟨hidx, hnone | hempty⟩
  · rw [hnone, hidx]
  · rw [hempty, hidx]
    simp

theorem C4_witness :
    cluster_modules String.length (fun _ => none) (fun _ => "")
        (fun _ _ => Except.error "llm unavailable")
        [("a", Node.mk "a" "class" false "" "0123456789" "f.py")]
        (Config.mk 3 2 "m") 2 1 true ["a"] 0 = ([], 3) := by
  have h := C4_retry_exhaustion_returns_empty String.length (fun _ => none)
    (fun _ => "") (fun _ _ => Except.error "llm unavailable")
    [("a", Node.mk "a" "class" false "" "0123456789" "f.py")]
    (Config.mk 3 2 "m") 2 0 0 true ["a"]
    (by decide)
    (fun i s v hv => by simp [oracleOutcome] at hv)
  simpa using h

/-! ### Claim C5: the depth cap

`cluster_modules` accepts no recursion-depth argument and reads only
`max_token_per_module` and `cluster_model` from the configuration; its
recursion is bounded by the token budget alone.  The concrete run below
uses a configured maximum depth of 1 and still produces a grandchild. -/

/-- C5 counterexample: with the configured maximum recursion depth set
to 1, the partitioner still splits a child of the first split — the
returned tree has a grandchild, because `cluster_modules` never consults
the depth setting (the `current_depth < max_depth` cap lives in the
documentation-generation agent, not in the partitioner). -/
theorem C5_counterexample_grandchild_despite_depth_one :
    demoCfg.max_depth = 1 ∧
    hasGrandchild
      (cluster_modules String.length demoParse (fun _ => "") demoOracle demoComps
        demoCfg 2 3 true ["a", "b", "c", "d"] 0).1 = true := by
  constructor <;> rfl

/-- C5 amended: a branch is forced to be a leaf by the token budget, not
by depth: whenever the rendered candidate text fits within
`max_token_per_module`, `cluster_modules` makes no oracle call and returns
the empty mapping ("no split"), so every child whose components fit the
budget stays a leaf; an over-budget child can be split again regardless of
the configured maximum depth. -/
theorem C5_token_budget_forces_leaf (tok : String → Nat)
    (parse : String → Option PyVal) (mkPrompt : List String → String)
    (oracle : Nat → String → Except String String) (components : Registry)
    (cfg : Config) (maxRetries fuel idx : Nat) (isRoot : Bool)
    (leaf_nodes : List String)
    (h : tok (format_potential_core_components leaf_nodes components).2 ≤
      cfg.max_token_per_module) :
    cluster_modules tok parse mkPrompt oracle components cfg maxRetries fuel
      isRoot leaf_nodes idx = ([], idx) := by
  cases fuel with
  | zero => rfl
  | succ fuel => simp [cluster_modules, h]

theorem C5_token_budget_forces_leaf_witness :
    String.length (format_potential_core_components ["a"] demoComps).2 ≤
      demoCfg.max_token_per_module ∧
    cluster_modules String.length demoParse (fun _ => "") demoOracle demoComps
      demoCfg 2 1 true ["a"] 7 = ([], 7) :=
  ⟨by decide,
   C5_token_budget_forces_leaf String.length demoParse (fun _ => "") demoOracle
     demoComps demoCfg 2 1 7 true ["a"] (by decide)⟩

/-! ### Claim C8: the importance-score formula -/

/-- Pull a sequentially accumulated bonus out as an additive term. -/
theorem chainIf (A B : Prop) [Decidable A] [Decidable B] (x u v : Nat) :
    (if A then x + u else if B then x + v else x) =
      x + (if A then u else if B then v else 0) := by
  split_ifs <;> omega

/-- Two branches adding the same bonus collapse to a disjunction. -/
theorem sameIf (A B : Prop) [Decidable A] [Decidable B] (u : Nat) :
    (if A then u else if B then u else 0) = if A ∨ B then u else 0 := by
  split_ifs with h1 h2 h3 <;> first | rfl | tauto

/-- C8: for every registered component, the importance score equals
`min(100, min(5*d, 30) + e + doc + len + kind)` with `d` the number of
graph entries whose dependency set contains the component, `e` the
entry-point/public bonus (20 for main/__main__/run/start/execute, else 10
without a leading underscore), `doc` 15 when the component has
documentation, `len` 10 for 10-200 source lines and 5 for 5-9, and `kind`
10 for class/interface and 5 for struct/enum; and every score (registered
or not) is at most 100. -/
theorem C8_importance_score_formula (comp_id : String) (components : Registry)
    (graph : Graph) (comp : Node) (h : components.lookup comp_id = some comp) :
    calculate_component_importance comp_id components graph =
      Nat.min 100
        (Nat.min ((graph.filter (fun e => e.2.contains comp_id)).length * 5) 30 +
          (if ["main", "__main__", "run", "start", "execute"].contains comp.name
            then 20
           else if !pyStartsWith comp.name "_" then 10
           else 0) +
          (if comp.has_docstring = true ∨ comp.docstring ≠ "" then 15 else 0) +
          (if 10 ≤ (pySplitOn comp.source_code "\n").length ∧
              (pySplitOn comp.source_code "\n").length ≤ 200 then 10
           else if 5 ≤ (pySplitOn comp.source_code "\n").length ∧
              (pySplitOn comp.source_code "\n").length < 10 then 5
           else 0) +
          (if ["class", "interface"].contains comp.component_type then 10
           else if ["struct", "enum"].contains comp.component_type then 5
           else 0)) ∧
    (∀ cid, calculate_component_importance cid components graph ≤ 100) := by
  constructor
  · simp only [calculate_component_importance, h]
    rw [chainIf, chainIf, chainIf, chainIf, sameIf]
    exact Nat.min_comm _ 100
  · intro cid
    cases hc : components.lookup cid with
    | none => simp [calculate_component_importance, hc]
    | some c =>
      simp only [calculate_component_importance, hc]
      exact Nat.min_le_right _ 100

theorem C8_witness :
    ([("m.main", Node.mk "main" "class" true "" "a\nb\nc\nd\ne" "m.py")] : Registry).lookup
        "m.main" = some (Node.mk "main" "class" true "" "a\nb\nc\nd\ne" "m.py") ∧
    calculate_component_importance "m.main"
        [("m.main", Node.mk "main" "class" true "" "a\nb\nc\nd\ne" "m.py")]
        [("x", ["m.main"]), ("y", ["m.main"])] = 60 := by
  have h := C8_importance_score_formula "m.main"
    [("m.main", Node.mk "main" "class" true "" "a\nb\nc\nd\ne" "m.py")]
    [("x", ["m.main"]), ("y", ["m.main"])]
    (Node.mk "main" "class" true "" "a\nb\nc\nd\ne" "m.py") rfl
  refine ⟨rfl, ?_⟩
  rw [h.1]
  rfl

/-! ### Claim C10: resolve_cycles only removes -/

theorem adjOf_cons (k : String) (ds : List String) (rest : Graph) (n : String) :
    adjOf ((k, ds) :: rest) n = if n = k then ds else adjOf rest n := by
  by_cases h : n = k
  · subst h
    simp [adjOf, List.lookup]
  · simp [adjOf, List.lookup, beq_eq_false_iff_ne.mpr h, h]

theorem removeEdge_cons_eq (k : String) (ds : List String) (rest : Graph)
    (b : String) :
    removeEdge ((k, ds) :: rest) k b = (k, ds.erase b) :: rest := by
  simp [removeEdge]

theorem removeEdge_cons_ne (k : String) (ds : List String) (rest : Graph)
    (a b : String) (h : k ≠ a) :
    removeEdge ((k, ds) :: rest) a b = (k, ds) :: removeEdge rest a b := by
  simp [removeEdge, h]

theorem removeEdge_keys (g : Graph) (a b : String) :
    keysOf (removeEdge g a b) = keysOf g := by
  induction g with
  | nil => rfl
  | cons e rest ih =>
    obtain ⟨k, ds⟩ := e
    by_cases hk : k = a
    · subst hk
      rw [removeEdge_cons_eq]
      rfl
    · rw [removeEdge_cons_ne k ds rest a b hk]
      simp only [keysOf, List.map_cons]
      rw [show (removeEdge rest a b).map Prod.fst = keysOf (removeEdge rest a b) from rfl,
        ih]
      rfl

theorem removeEdge_adj (g : Graph) (a b n : String) :
    ∀ d ∈ adjOf (removeEdge g a b) n, d ∈ adjOf g n := by
  induction g with
  | nil => intro d hd; exact hd
  | cons e rest ih =>
    obtain ⟨k, ds⟩ := e
    intro d hd
    by_cases hk : k = a
    · subst hk
      rw [removeEdge_cons_eq] at hd
      rw [adjOf_cons] at hd ⊢
      by_cases hn : n = k
      · rw [if_pos hn] at hd ⊢
        exact List.erase_subset b ds hd
      · rw [if_neg hn] at hd ⊢
        exact hd
    · rw [removeEdge_cons_ne k ds rest a b hk] at hd
      rw [adjOf_cons] at hd ⊢
      by_cases hn : n = k
      · rw [if_pos hn] at hd ⊢
        exact hd
      · rw [if_neg hn] at hd ⊢
        exact ih d hd

theorem removeEdge_edges (g : Graph) (a b : String) :
    edgeCount g ≤ edgeCount (removeEdge g a b) + 1 := by
  induction g with
  | nil => simp [removeEdge]
  | cons e rest ih =>
    obtain ⟨k, ds⟩ := e
    by_cases hk : k = a
    · subst hk
      rw [removeEdge_cons_eq]
      simp only [edgeCount, List.map_cons, List.sum_cons]
      have herase := List.length_erase b ds
      by_cases hb : b ∈ ds
      · rw [if_pos hb] at herase
        omega
      · rw [if_neg hb] at herase
        omega
    · rw [removeEdge_cons_ne k ds rest a b hk]
      simp only [edgeCount, List.map_cons, List.sum_cons]
      simp only [edgeCount] at ih
      omega

theorem breakCycle_keys (g : Graph) (c : List String) :
    keysOf (breakCycle g c) = keysOf g := by
  induction c with
  | nil => rfl
  | cons x xs ih =>
    cases xs with
    | nil => rfl
    | cons y ys =>
      by_cases h : (adjOf g x).contains y
      · simp only [breakCycle, h, if_pos]
        exact removeEdge_keys g x y
      · simp only [breakCycle, h, Bool.false_eq_true, if_neg, not_false_iff]
        exact ih

theorem breakCycle_adj (g : Graph) (c : List String) (n : String) :
    ∀ d ∈ adjOf (breakCycle g c) n, d ∈ adjOf g n := by
  induction c with
  | nil => intro d hd; exact hd
  | cons x xs ih =>
    cases xs with
    | nil => intro d hd; exact hd
    | cons y ys =>
      intro d hd
      by_cases h : (adjOf g x).contains y
      · simp only [breakCycle, h, if_pos] at hd
        exact removeEdge_adj g x y n d hd
      · simp only [breakCycle, h, Bool.false_eq_true, if_neg, not_false_iff] at hd
        exact ih d hd

theorem breakCycle_edges (g : Graph) (c : List String) :
    edgeCount g ≤ edgeCount (breakCycle g c) + 1 := by
  induction c with
  | nil => simp [breakCycle]
  | cons x xs ih =>
    cases xs with
    | nil => simp [breakCycle]
    | cons y ys =>
      by_cases h : (adjOf g x).contains y
      · simp only [breakCycle, h, if_pos]
        exact removeEdge_edges g x y
      · simp only [breakCycle, h, Bool.false_eq_true, if_neg, not_false_iff]
        exact ih

theorem foldBreak_keys (cs : List (List String)) :
    ∀ g : Graph, keysOf (cs.foldl breakCycle g) = keysOf g := by
  induction cs with
  | nil => intro g; rfl
  | cons c cs ih =>
    intro g
    rw [List.foldl_cons, ih (breakCycle g c), breakCycle_keys]

theorem foldBreak_adj (cs : List (List String)) :
    ∀ (g : Graph) (n d : String), d ∈ adjOf (cs.foldl breakCycle g) n →
      d ∈ adjOf g n := by
  induction cs with
  | nil => intro g n d hd; exact hd
  | cons c cs ih =>
    intro g n d hd
    exact breakCycle_adj g c n d (ih (breakCycle g c) n d hd)

theorem foldBreak_edges (cs : List (List String)) :
    ∀ g : Graph, edgeCount g ≤ edgeCount (cs.foldl breakCycle g) + cs.length := by
  induction cs with
  | nil => intro g; simp
  | cons c cs ih =>
    intro g
    have h1 := breakCycle_edges g c
    have h2 := ih (breakCycle g c)
    simp only [List.foldl_cons, List.length_cons]
    omega

/-- C10: `resolve_cycles` never adds anything: the key list (hence the
key set) is unchanged, every output adjacency list is contained in the
corresponding input one, at most one edge is removed per reported cycle
(total edges drop by at most the number of detected SCCs), and with no
detected cycles the input graph is returned unchanged. -/
theorem C10_resolve_cycles_only_removes (g : Graph) :
    keysOf (resolve_cycles g) = keysOf g ∧
    (∀ n d, d ∈ adjOf (resolve_cycles g) n → d ∈ adjOf g n) ∧
    edgeCount g ≤ edgeCount (resolve_cycles g) + (detect_cycles g).length ∧
    (detect_cycles g = [] → resolve_cycles g = g) := by
  unfold resolve_cycles
  by_cases h : (detect_cycles g).isEmpty
  · rw [if_pos h]
    exact ⟨rfl, fun n d hd => hd, Nat.le_add_right _ _, fun _ => rfl⟩
  · rw [if_neg h]
    refine ⟨foldBreak_keys _ g, foldBreak_adj _ g, foldBreak_edges _ g, ?_⟩
    intro he
    rw [he] at h
    simp at h

theorem C10_witness :
    keysOf (resolve_cycles [("A", ["B"]), ("B", [])]) =
      keysOf [("A", ["B"]), ("B", [])] ∧
    (∀ n d, d ∈ adjOf (resolve_cycles [("A", ["B"]), ("B", [])]) n →
      d ∈ adjOf [("A", ["B"]), ("B", [])] n) ∧
    edgeCount [("A", ["B"]), ("B", [])] ≤
      edgeCount (resolve_cycles [("A", ["B"]), ("B", [])]) +
        (detect_cycles [("A", ["B"]), ("B", [])]).length ∧
    resolve_cycles [("A", ["B"]), ("B", [])] = [("A", ["B"]), ("B", [])] := by
  have h := C10_resolve_cycles_only_removes [("A", ["B"]), ("B", [])]
  exact ⟨h.1, h.2.1, h.2.2.1, h.2.2.2 rfl⟩

/-! ### Claim C3: the module-tree validity invariant -/

theorem lookup_isSome_mem {β : Type} (l : List (String × β)) (s : String)
    (h : (l.lookup s).isSome = true) : s ∈ l.map Prod.fst := by
  induction l with
  | nil => simp [List.lookup] at h
  | cons e rest ih =>
    obtain ⟨k, v⟩ := e
    by_cases hk : s = k
    · simp [hk]
    · simp only [List.lookup, beq_eq_false_iff_ne.mpr hk] at h
      simp [ih h]

theorem treeValidB_append (keys : List String) (l1 l2 : MTree) :
    treeValidB keys (l1 ++ l2) = (treeValidB keys l1 && treeValidB keys l2) := by
  induction l1 with
  | nil => simp [treeValidB]
  | cons e rest ih =>
    obtain ⟨n, node⟩ := e
    cases node with
    | mk p cs ch =>
      simp [treeValidB, ih, Bool.and_assoc]

theorem validId_mem (components : Registry) (c : PyVal) (s : String)
    (h : validId components c = some s) : s ∈ components.map Prod.fst := by
  cases c with
  | str s2 =>
    simp only [validId] at h
    by_cases hsome : (components.lookup s2).isSome
    · rw [if_pos hsome] at h
      cases h
      exact lookup_isSome_mem components _ hsome
    · rw [if_neg hsome] at h
      cases h
  | num n => cases h
  | bool b => cases h
  | nil => cases h
  | list xs => cases h
  | dict kvs => cases h

/-- The filtered component ids all come from the registry key list. -/
theorem validComponents_sound (components : Registry)
    (kvs : List (String × PyVal)) :
    ∀ s ∈ validComponents components kvs, s ∈ components.map Prod.fst := by
  intro s hs
  unfold validComponents at hs
  rcases List.mem_filterMap.mp hs with ⟨c, _, hc⟩
  exact validId_mem components c s hc

theorem validateStep_valid (components : Registry) (acc : MTree)
    (e : String × PyVal) (hacc : treeValidB (components.map Prod.fst) acc = true) :
    treeValidB (components.map Prod.fst) (validateStep components acc e) = true := by
  unfold validateStep
  cases e.2 with
  | dict kvs =>
    simp only []
    by_cases hv : (validComponents components kvs).isEmpty
    · rw [if_pos hv]
      exact hacc
    · rw [if_neg hv]
      rw [treeValidB_append, Bool.and_eq_true]
      refine ⟨hacc, ?_⟩
      simp only [treeValidB, Bool.and_eq_true, List.all_eq_true]
      refine ⟨⟨⟨by simpa using hv, ?_⟩, by simp [treeValidB]⟩, by simp [treeValidB]⟩
      intro s hs
      simpa [List.elem_iff] using validComponents_sound components kvs s hs
  | str s => exact hacc
  | num n => exact hacc
  | bool b => exact hacc
  | nil => exact hacc
  | list xs => exact hacc

/-- Every entry that `validate_module_tree` emits has a nonempty component
list drawn entirely from the registry keys and empty children. -/
theorem treeValidB_validate (entries : List (String × PyVal))
    (components : Registry) :
    treeValidB (components.map Prod.fst) (validate_module_tree entries components)
      = true := by
  unfold validate_module_tree
  suffices h : ∀ acc : MTree, treeValidB (components.map Prod.fst) acc = true →
      treeValidB (components.map Prod.fst)
        (entries.foldl (validateStep components) acc) = true by
    exact h [] (by simp [treeValidB])
  induction entries with
  | nil => intro acc hacc; exact hacc
  | cons e rest ih =>
    intro acc hacc
    rw [List.foldl_cons]
    exact ih _ (validateStep_valid components acc e hacc)

theorem attemptStep_valid (parse : String → Option PyVal) (components : Registry)
    (resp : String) (v : MTree) (h : attemptStep parse components resp = some v) :
    treeValidB (components.map Prod.fst) v = true := by
  simp only [attemptStep] at h
  split at h
  · cases h
  · split at h
    · cases h
      exact treeValidB_validate _ components
    · cases h

theorem tryLoop_valid (oracle : Nat → String → Except String String)
    (parse : String → Option PyVal) (components : Registry) (prompt : String) :
    ∀ (n idx : Nat) (mt : Option MTree),
      (∀ v, mt = some v → treeValidB (components.map Prod.fst) v = true) →
      ∀ v, (tryLoop oracle parse components prompt n idx mt).1 = some v →
        treeValidB (components.map Prod.fst) v = true := by
  intro n
  induction n with
  | zero =>
    intro idx mt hmt v hv
    exact hmt v hv
  | succ n ih =>
    intro idx mt hmt v hv
    simp only [tryLoop] at hv
    split at hv
    · exact ih (idx + 1) mt hmt v hv
    · rename_i w heq
      have hw : treeValidB (components.map Prod.fst) w = true := by
        cases hor : oracle idx prompt with
        | error e =>
          rw [hor] at heq
          cases heq
        | ok resp =>
          rw [hor] at heq
          exact attemptStep_valid parse components resp w heq
      by_cases hemp : w.isEmpty
      · rw [if_pos hemp] at hv
        refine ih (idx + 1) (some w) ?_ v hv
        intro u hu
        cases hu
        exact hw
      · rw [if_neg hemp] at hv
        have hv2 : some w = some v := hv
        cases hv2
        exact hw

theorem stripPath_validB (keys : List String) (t : MTree) :
    treeValidB keys (t.map (fun e => (e.1, stripPath e.2))) = treeValidB keys t := by
  induction t with
  | nil => rfl
  | cons e rest ih =>
    obtain ⟨n, node⟩ := e
    cases node with
    | mk p cs ch =>
      simp only [List.map_cons]
      rw [show stripPath (MNode.mk p cs ch) = MNode.mk none cs ch from rfl]
      simp only [treeValidB]
      rw [ih]

theorem clusterChildren_valid (keys : List String)
    (step : List String → Nat → MTree × Nat)
    (hstep : ∀ ls i, treeValidB keys (step ls i).1 = true) :
    ∀ (t : MTree) (idx : Nat), treeValidB keys t = true →
      treeValidB keys (clusterChildren step t idx).1 = true := by
  intro t
  induction t with
  | nil => intro idx h; exact h
  | cons e rest ih =>
    obtain ⟨n, node⟩ := e
    cases node with
    | mk p cs ch =>
      intro idx h
      simp only [treeValidB, Bool.and_eq_true] at h
      simp only [clusterChildren, treeValidB, Bool.and_eq_true]
      refine ⟨⟨?_, hstep cs idx⟩, ih _ ?_⟩ <;> tauto

/-- C3: every mapping returned by `cluster_modules` (whose per-level
output passes through `validate_module_tree`) is recursively valid: every
component id appearing in any `components` list anywhere in the nested
result tree, including recursively created children, is a key of the
component registry, and every retained group carries at least one such
valid component (so a proposed group that is malformed or has no registry
ids never appears).  This holds for every oracle, parser, token counter,
prompt builder, configuration, retry budget and recursion fuel. -/
theorem C3_cluster_modules_tree_valid (tok : String → Nat)
    (parse : String → Option PyVal) (mkPrompt : List String → String)
    (oracle : Nat → String → Except String String) (components : Registry)
    (cfg : Config) (maxRetries : Nat) :
    ∀ (fuel : Nat) (isRoot : Bool) (leaf_nodes : List String) (idx : Nat),
      treeValidB (components.map Prod.fst)
        (cluster_modules tok parse mkPrompt oracle components cfg maxRetries fuel
          isRoot leaf_nodes idx).1 = true := by
  intro fuel
  induction fuel with
  | zero => intro _ _ _; simp [cluster_modules, treeValidB]
  | succ fuel ih =>
    intro isRoot leafs idx
    simp only [cluster_modules]
    by_cases hb : tok (format_potential_core_components leafs components).2 ≤
        cfg.max_token_per_module
    · rw [if_pos hb]
      simp [treeValidB]
    · rw [if_neg hb]
      cases htl : (tryLoop oracle parse components (mkPrompt leafs) (maxRetries + 1)
          idx none).1 with
      | none => simp [treeValidB]
      | some tree =>
        have hvt : treeValidB (components.map Prod.fst) tree = true :=
          tryLoop_valid oracle parse components (mkPrompt leafs) (maxRetries + 1)
            idx none (fun v hv => by cases hv) tree htl
        simp only []
        by_cases hlen : tree.length ≤ 1
        · rw [if_pos hlen]
          simp [treeValidB]
        · rw [if_neg hlen]
          apply clusterChildren_valid (components.map Prod.fst) _
            (fun ls i => ih false ls i)
          cases isRoot with
          | true => simpa using hvt
          | false => simpa [stripPath_validB] using hvt

/-! ### Claim C7: dependency_first_dfs visits every node exactly once -/

theorem lookup_mem_pair {β : Type} (l : List (String × β)) (k : String) (v : β)
    (h : l.lookup k = some v) : (k, v) ∈ l := by
  induction l with
  | nil => cases h
  | cons e rest ih =>
    obtain ⟨k2, v2⟩ := e
    by_cases hk : k = k2
    · subst hk
      simp only [List.lookup, beq_self_eq_true] at h
      injection h with h
      subst h
      exact List.mem_cons_self _ _
    · simp only [List.lookup, beq_eq_false_iff_ne.mpr hk] at h
      exact List.mem_cons_of_mem _ (ih h)

/-- Under the well-formedness hypothesis of the claim (every adjacency
list references only keys), every `adjOf` target is a key. -/
theorem adjOf_closed (g : Graph)
    (hwf : ∀ e ∈ g, ∀ d ∈ e.2, d ∈ keysOf g) (n : String) :
    ∀ d ∈ adjOf g n, d ∈ keysOf g := by
  intro d hd
  unfold adjOf at hd
  cases hl : g.lookup n with
  | none => rw [hl] at hd; cases hd
  | some ds =>
    rw [hl] at hd
    exact hwf (n, ds) (lookup_mem_pair g n ds hl) d hd

theorem resolve_cycles_keys (g : Graph) :
    keysOf (resolve_cycles g) = keysOf g := by
  unfold resolve_cycles
  by_cases h : (detect_cycles g).isEmpty
  · rw [if_pos h]
  · rw [if_neg h]
    exact foldBreak_keys _ g

theorem resolve_cycles_adj (g : Graph) (n d : String) :
    d ∈ adjOf (resolve_cycles g) n → d ∈ adjOf g n := by
  unfold resolve_cycles
  by_cases h : (detect_cycles g).isEmpty
  · rw [if_pos h]
    exact fun hd => hd
  · rw [if_neg h]
    exact foldBreak_adj _ g n d

/-- The effect of one or more `dfs` calls on the (visited, result) state:
the result grows by a block `Δ` of previously unvisited, pairwise
distinct nodes drawn from the seeds and the graph keys, and the visited
set grows by exactly the same block. -/
def DfsStep (g : Graph) (seeds : List String) (st st' : DfsSt) : Prop :=
  ∃ Δ : List String,
    st'.2 = st.2 ++ Δ ∧
    (∀ x, x ∈ st'.1 ↔ x ∈ st.1 ∨ x ∈ Δ) ∧
    (∀ x ∈ Δ, x ∉ st.1) ∧
    Δ.Nodup ∧
    (∀ x ∈ Δ, x ∈ seeds ∨ x ∈ keysOf g)

theorem DfsStep.refl (g : Graph) (seeds : List String) (st : DfsSt) :
    DfsStep g seeds st st :=
  ⟨[], by simp, by simp, by simp, List.nodup_nil, by simp⟩

theorem DfsStep.mem_mono {g : Graph} {seeds : List String} {st st' : DfsSt}
    (h : DfsStep g seeds st st') {x : String} (hx : x ∈ st.1) : x ∈ st'.1 := by
  obtain ⟨Δ, _, hmem, _, _, _⟩ := h
  exact (hmem x).mpr (Or.inl hx)

theorem DfsStep.trans {g : Graph} {s1 s2 : List String} {st st' st'' : DfsSt}
    (h1 : DfsStep g s1 st st') (h2 : DfsStep g s2 st' st'') :
    DfsStep g (s1 ++ s2) st st'' := by
  obtain ⟨d1, hr1, hm1, hf1, hn1, hs1⟩ := h1
  obtain ⟨d2, hr2, hm2, hf2, hn2, hs2⟩ := h2
  refine ⟨d1 ++ d2, ?_, ?_, ?_, ?_, ?_⟩
  · rw [hr2, hr1, List.append_assoc]
  · intro x
    rw [hm2 x, hm1 x, List.mem_append]
    tauto
  · intro x hx
    rcases List.mem_append.mp hx with hx | hx
    · exact hf1 x hx
    · intro hin
      exact hf2 x hx ((hm1 x).mpr (Or.inl hin))
  · rw [List.nodup_append]
    refine ⟨hn1, hn2, ?_⟩
    intro x hx1 hx2
    exact hf2 x hx2 ((hm1 x).mpr (Or.inr hx1))
  · intro x hx
    rcases List.mem_append.mp hx with hx | hx
    · rcases hs1 x hx with h | h
      · exact Or.inl (List.mem_append.mpr (Or.inl h))
      · exact Or.inr h
    · rcases hs2 x hx with h | h
      · exact Or.inl (List.mem_append.mpr (Or.inr h))
      · exact Or.inr h

theorem DfsStep.mono {g : Graph} {s1 s2 : List String} {st st' : DfsSt}
    (h : DfsStep g s1 st st') (hs : ∀ x ∈ s1, x ∈ s2) : DfsStep g s2 st st' := by
  obtain ⟨Δ, hr, hm, hf, hn, hsd⟩ := h
  refine ⟨Δ, hr, hm, hf, hn, ?_⟩
  intro x hx
  rcases hsd x hx with h | h
  · exact Or.inl (hs x h)
  · exact Or.inr h

theorem dfsVisit_visited (g : Graph) (fuel : Nat) (node : String) (st : DfsSt)
    (hc : st.1.contains node = true) : dfsVisit g (fuel + 1) node st = st := by
  simp only [dfsVisit]
  rw [if_pos hc]

theorem dfsVisit_fresh (g : Graph) (fuel : Nat) (node : String) (st : DfsSt)
    (hc : st.1.contains node = false) :
    dfsVisit g (fuel + 1) node st =
      (((sortStrings (adjOf g node)).foldl (fun s dep => dfsVisit g fuel dep s)
          (node :: st.1, st.2)).1,
        ((sortStrings (adjOf g node)).foldl (fun s dep => dfsVisit g fuel dep s)
          (node :: st.1, st.2)).2 ++ [node]) := by
  simp only [dfsVisit]
  rw [if_neg (by rw [hc]; exact Bool.false_ne_true)]

theorem dfsFold_spec (g : Graph) (fuel : Nat)
    (hv : ∀ node st, DfsStep g [node] st (dfsVisit g fuel node st)) :
    ∀ (ns : List String) (st : DfsSt),
      DfsStep g ns st (ns.foldl (fun s dep => dfsVisit g fuel dep s) st) := by
  intro ns
  induction ns with
  | nil => intro st; exact DfsStep.refl g [] st
  | cons d ds ih =>
    intro st
    rw [List.foldl_cons]
    exact DfsStep.trans (hv d st) (ih (dfsVisit g fuel d st))

/-- `dfs(node)` performs a `DfsStep` seeded by the node, and with nonzero
fuel it always marks the node visited. -/
theorem dfsVisit_spec (g : Graph)
    (hg : ∀ n d, d ∈ adjOf g n → d ∈ keysOf g) :
    ∀ (fuel : Nat) (node : String) (st : DfsSt),
      DfsStep g [node] st (dfsVisit g fuel node st) ∧
        (0 < fuel → node ∈ (dfsVisit g fuel node st).1) := by
  intro fuel
  induction fuel with
  | zero =>
    intro node st
    exact ⟨DfsStep.refl g [node] st, fun h => absurd h (by omega)⟩
  | succ fuel ih =>
    intro node st
    by_cases hc : st.1.contains node = true
    · rw [dfsVisit_visited g fuel node st hc]
      exact ⟨DfsStep.refl g [node] st, fun _ => by simpa using hc⟩
    · have hcf : st.1.contains node = false := by
        cases h2 : st.1.contains node
        · rfl
        · exact absurd h2 hc
      have hnotin : node ∉ st.1 := by simpa using hcf
      rw [dfsVisit_fresh g fuel node st hcf]
      obtain ⟨Δ2, hres, hmem, hfresh, hnd, hseed⟩ :=
        dfsFold_spec g fuel (fun n s => (ih n s).1) (sortStrings (adjOf g node))
          ((node :: st.1, st.2) : DfsSt)
      constructor
      · refine ⟨Δ2 ++ [node], ?_, ?_, ?_, ?_, ?_⟩
        · have hres2 :
              ((sortStrings (adjOf g node)).foldl (fun s dep => dfsVisit g fuel dep s)
                ((node :: st.1, st.2) : DfsSt)).2 = st.2 ++ Δ2 := hres
          rw [hres2, List.append_assoc]
        · intro x
          have h1 :
              x ∈ ((sortStrings (adjOf g node)).foldl
                  (fun s dep => dfsVisit g fuel dep s)
                  ((node :: st.1, st.2) : DfsSt)).1 ↔
                x ∈ node :: st.1 ∨ x ∈ Δ2 := hmem x
          simp only [List.mem_cons] at h1
          simp only [List.mem_append, List.mem_singleton]
          rw [h1]
          tauto
        · intro x hx
          rcases List.mem_append.mp hx with hx | hx
          · have h2 : x ∉ node :: st.1 := hfresh x hx
            simp only [List.mem_cons] at h2
            exact fun hin => h2 (Or.inr hin)
          · rw [List.mem_singleton] at hx
            subst hx
            exact hnotin
        · rw [List.nodup_append]
          refine ⟨hnd, List.nodup_singleton node, ?_⟩
          intro x hx1 hx2
          rw [List.mem_singleton] at hx2
          subst hx2
          exact (hfresh x hx1) (List.mem_cons_self _ _)
        · intro x hx
          rcases List.mem_append.mp hx with hx | hx
          · rcases hseed x hx with h | h
            · exact Or.inr (hg node x ((sortStrings_mem _ x).mp h))
            · exact Or.inr h
          · rw [List.mem_singleton] at hx
            exact Or.inl (by simp [hx])
      · intro _
        exact (hmem node).mpr (Or.inl (List.mem_cons_self _ _))

theorem dfsRoots_sub (ag : Graph) : ∀ r ∈ dfsRoots ag, r ∈ keysOf ag := by
  intro r hr
  simp only [dfsRoots] at hr
  split at hr
  · exact List.take_subset _ _ hr
  · exact (List.mem_filter.mp hr).1

theorem dfsPhase1_spec (ag : Graph)
    (hg : ∀ n d, d ∈ adjOf ag n → d ∈ keysOf ag) :
    DfsStep ag (sortStrings (dfsRoots ag)) ([], []) (dfsPhase1 ag) :=
  dfsFold_spec ag (ag.length + 1)
    (fun n s => (dfsVisit_spec ag hg (ag.length + 1) n s).1)
    (sortStrings (dfsRoots ag)) ([], [])

theorem dfsSafety_spec (ag : Graph)
    (hg : ∀ n d, d ∈ adjOf ag n → d ∈ keysOf ag) :
    ∀ (ns : List String) (st : DfsSt),
      DfsStep ag ns st
        (ns.foldl
          (fun s n => if s.1.contains n then s else dfsVisit ag (ag.length + 1) n s)
          st) ∧
      ∀ n ∈ ns,
        n ∈ (ns.foldl
          (fun s n => if s.1.contains n then s else dfsVisit ag (ag.length + 1) n s)
          st).1 := by
  intro ns
  induction ns with
  | nil =>
    intro st
    exact ⟨DfsStep.refl ag [] st, by simp⟩
  | cons n ns ih =>
    intro st
    rw [List.foldl_cons]
    have hstep1 : DfsStep ag [n] st
        (if st.1.contains n then st else dfsVisit ag (ag.length + 1) n st) := by
      by_cases hc : st.1.contains n = true
      · rw [if_pos hc]
        exact DfsStep.refl ag [n] st
      · rw [if_neg hc]
        exact (dfsVisit_spec ag hg (ag.length + 1) n st).1
    have hn1 : n ∈
        (if st.1.contains n then st else dfsVisit ag (ag.length + 1) n st).1 := by
      by_cases hc : st.1.contains n = true
      · rw [if_pos hc]
        simpa using hc
      · rw [if_neg hc]
        exact (dfsVisit_spec ag hg (ag.length + 1) n st).2 (by omega)
    obtain ⟨hstep2, hmem2⟩ :=
      ih (if st.1.contains n then st else dfsVisit ag (ag.length + 1) n st)
    refine ⟨DfsStep.trans hstep1 hstep2, ?_⟩
    intro m hm
    rcases List.mem_cons.mp hm with hm | hm
    · subst hm
      exact hstep2.mem_mono hn1
    · exact hmem2 m hm

theorem dfsPhase2_all (ag : Graph)
    (hg : ∀ n d, d ∈ adjOf ag n → d ∈ keysOf ag)
    (hnd : (keysOf ag).Nodup) :
    (dfsPhase2 ag).2.Nodup ∧ (∀ y ∈ (dfsPhase2 ag).2, y ∈ keysOf ag) ∧
      (∀ k ∈ keysOf ag, k ∈ (dfsPhase2 ag).2) := by
  obtain ⟨Δ1, hres1, hmem1, hfresh1, hnd1, hseed1⟩ := dfsPhase1_spec ag hg
  have hr1res : (dfsPhase1 ag).2 = Δ1 := by simpa using hres1
  have hr1sub : ∀ y ∈ (dfsPhase1 ag).2, y ∈ keysOf ag := by
    intro y hy
    rw [hr1res] at hy
    rcases hseed1 y hy with h | h
    · exact dfsRoots_sub ag y ((sortStrings_mem _ y).mp h)
    · exact h
  have hr1nd : (dfsPhase1 ag).2.Nodup := by
    rw [hr1res]
    exact hnd1
  have hv1iff : ∀ x, x ∈ (dfsPhase1 ag).1 ↔ x ∈ (dfsPhase1 ag).2 := by
    intro x
    rw [hr1res]
    simpa using hmem1 x
  unfold dfsPhase2
  by_cases hlen : (dfsPhase1 ag).2.length ≠ ag.length
  · rw [if_pos hlen]
    obtain ⟨hstep2, hall2⟩ := dfsSafety_spec ag hg (sortStrings (keysOf ag))
      (dfsPhase1 ag)
    obtain ⟨Δ2, hres2, hmem2, hfresh2, hnd2, hseed2⟩ := hstep2
    refine ⟨?_, ?_, ?_⟩
    · rw [hres2, List.nodup_append]
      refine ⟨hr1nd, hnd2, ?_⟩
      intro x hx1 hx2
      exact hfresh2 x hx2 ((hv1iff x).mpr hx1)
    · intro y hy
      rw [hres2] at hy
      rcases List.mem_append.mp hy with hy | hy
      · exact hr1sub y hy
      · rcases hseed2 y hy with h | h
        · exact (sortStrings_mem _ y).mp h
        · exact h
    · intro k hk
      have hkin := hall2 k ((sortStrings_mem _ k).mpr hk)
      rw [hres2, List.mem_append]
      rcases (hmem2 k).mp hkin with h | h
      · exact Or.inl ((hv1iff k).mp h)
      · exact Or.inr h
  · rw [if_neg hlen]
    push_neg at hlen
    refine ⟨hr1nd, hr1sub, ?_⟩
    have hcard : (dfsPhase1 ag).2.toFinset = (keysOf ag).toFinset := by
      apply Finset.eq_of_subset_of_card_le
      · intro x hx
        rw [List.mem_toFinset] at hx ⊢
        exact hr1sub x hx
      · rw [List.toFinset_card_of_nodup hnd, List.toFinset_card_of_nodup hr1nd,
          hlen]
        simp [keysOf]
    intro k hk
    have hkf : k ∈ (keysOf ag).toFinset := List.mem_toFinset.mpr hk
    rw [← hcard] at hkf
    exact List.mem_toFinset.mp hkf

/-- C7: for every graph whose adjacency lists reference only graph keys
(and whose keys are distinct, as Python dict keys are),
`dependency_first_dfs` returns a list containing every node exactly once:
each key occurs with count 1 and nothing but keys occurs. -/
theorem C7_dependency_first_dfs_every_node_once (g : Graph)
    (hnodup : (keysOf g).Nodup)
    (hwf : ∀ e ∈ g, ∀ d ∈ e.2, d ∈ keysOf g) :
    (∀ x ∈ keysOf g, (dependency_first_dfs g).count x = 1) ∧
    (∀ y ∈ dependency_first_dfs g, y ∈ keysOf g) := by
  have hkeys := resolve_cycles_keys g
  have hg : ∀ n d, d ∈ adjOf (resolve_cycles g) n →
      d ∈ keysOf (resolve_cycles g) := by
    intro n d hd
    rw [hkeys]
    exact adjOf_closed g hwf n d (resolve_cycles_adj g n d hd)
  have hnd : (keysOf (resolve_cycles g)).Nodup := by
    rw [hkeys]
    exact hnodup
  obtain ⟨hndr, hsub, hall⟩ := dfsPhase2_all (resolve_cycles g) hg hnd
  constructor
  · intro x hx
    exact List.count_eq_one_of_mem hndr (hall x (by rw [hkeys]; exact hx))
  · intro y hy
    rw [← hkeys]
    exact hsub y hy

theorem C7_witness :
    (keysOf [("a", ["b"]), ("b", []), ("c", ["a"])]).Nodup ∧
    (∀ e ∈ ([("a", ["b"]), ("b", []), ("c", ["a"])] : Graph), ∀ d ∈ e.2,
      d ∈ keysOf [("a", ["b"]), ("b", []), ("c", ["a"])]) ∧
    (∀ x ∈ keysOf [("a", ["b"]), ("b", []), ("c", ["a"])],
      (dependency_first_dfs [("a", ["b"]), ("b", []), ("c", ["a"])]).count x = 1) := by
  have h := C7_dependency_first_dfs_every_node_once
    [("a", ["b"]), ("b", []), ("c", ["a"])] (by decide) (by decide)
  exact ⟨by decide, by decide, h.1⟩

/-! ### Claim C6: the 400-candidate cap of get_leaf_nodes

The witness input is the 500-node `capGraph`/`capComps` family; the
hypotheses of the claim theorem are established symbolically (no-edge
Tarjan runs report no cycle, every candidate passes the filters and
scores, pruning keeps every node). -/

theorem adjOf_nil (g : Graph) (hg : ∀ e ∈ g, e.2 = []) (n : String) :
    adjOf g n = [] := by
  unfold adjOf
  cases hl : g.lookup n with
  | none => rfl
  | some ds =>
    simp only [Option.getD_some]
    exact hg (n, ds) (lookup_mem_pair g n ds hl)

theorem strongconnect_noEdge (g : Graph) (n : String) (hadj : adjOf g n = [])
    (fuel c : Nat) (idx low : List (String × Nat)) (res : List (List String)) :
    strongconnect g (fuel + 1) n ⟨c, idx, low, [], [], res⟩ =
      ⟨c + 1, (n, c) :: idx, (n, c) :: low, [], [], res⟩ := by
  simp only [strongconnect, hadj, List.foldl_nil]
  simp [sccPhase, lowOfNode, idxOfNode, popToNode, List.lookup]

theorem tarjanFold_noEdge (g : Graph) (hg : ∀ e ∈ g, e.2 = []) (fuel : Nat) :
    ∀ (ks : List String) (c : Nat) (idx low : List (String × Nat))
      (res : List (List String)),
      ((ks.foldl (fun st n =>
          if (st.index.lookup n).isNone then strongconnect g (fuel + 1) n st else st)
        (⟨c, idx, low, [], [], res⟩ : TarjanSt))).result = res := by
  intro ks
  induction ks with
  | nil => intro c idx low res; rfl
  | cons k t ih =>
    intro c idx low res
    rw [List.foldl_cons]
    by_cases h : (((⟨c, idx, low, [], [], res⟩ : TarjanSt)).index.lookup k).isNone = true
    · rw [if_pos h, strongconnect_noEdge g k (adjOf_nil g hg k)]
      exact ih (c + 1) _ _ res
    · rw [if_neg h]
      exact ih c idx low res

theorem noEdge_detect (g : Graph) (hg : ∀ e ∈ g, e.2 = []) :
    detect_cycles g = [] := by
  have hf : tarjanFuel g = (g.length + (g.map (fun e => e.2.length)).sum) + 1 := rfl
  simp only [detect_cycles]
  rw [hf]
  exact tarjanFold_noEdge g hg _ (keysOf g) 0 [] [] []

theorem noEdge_resolve (g : Graph) (hg : ∀ e ∈ g, e.2 = []) :
    resolve_cycles g = g := by
  simp [resolve_cycles, noEdge_detect g hg]

theorem dropWhile_no (p : Char → Bool) (l : List Char)
    (h : ∀ c ∈ l, p c = false) : l.dropWhile p = l := by
  cases l with
  | nil => rfl
  | cons c t =>
    rw [List.dropWhile_cons, if_neg (by simp [h c (List.mem_cons_self c t)])]

theorem capName_chars (i : Nat) : ∀ ch ∈ (capName i).data, ch = 'c' ∨ ch = 'x' := by
  intro ch hch
  have hch2 : ch ∈ 'c' :: List.replicate i 'x' := hch
  rcases List.mem_cons.mp hch2 with h | h
  · exact Or.inl h
  · exact Or.inr (List.eq_of_mem_replicate h)

theorem capName_ne_empty (i : Nat) : capName i ≠ "" := by
  intro h
  have h2 : 'c' :: List.replicate i 'x' = ([] : List Char) := congrArg String.data h
  cases h2

theorem pyTrim_cap (i : Nat) : pyTrim (capName i) = capName i := by
  have hno : ∀ ch ∈ (capName i).data, Char.isWhitespace ch = false := by
    intro ch hch
    rcases capName_chars i ch hch with rfl | rfl <;> decide
  unfold pyTrim
  rw [dropWhile_no _ _ hno,
    dropWhile_no _ _ (fun c hc => hno c (List.mem_reverse.mp hc)),
    List.reverse_reverse]

theorem pyToLower_cap (i : Nat) : pyToLower (capName i) = capName i := by
  unfold pyToLower
  show String.mk (('c' :: List.replicate i 'x').map Char.toLower) = capName i
  rw [List.map_cons, List.map_replicate,
    show Char.toLower 'c' = 'c' by decide, show Char.toLower 'x' = 'x' by decide]
  rfl

theorem chListContains_head_mem (p : Char) (ps : List Char) :
    ∀ hay : List Char, chListContains hay (p :: ps) = true → p ∈ hay := by
  intro hay
  induction hay with
  | nil => intro h; simp [chListContains] at h
  | cons h t ih =>
    intro hc
    simp only [chListContains, Bool.or_eq_true] at hc
    rcases hc with hpre | hrest
    · simp only [chListPrefix, Bool.and_eq_true, beq_iff_eq] at hpre
      rw [hpre.1]
      exact List.mem_cons_self _ _
    · exact List.mem_cons_of_mem h (ih hrest)

theorem strContains_false_of_head (s pat : String) (p : Char) (ps : List Char)
    (hd : pat.data = p :: ps) (hp : p ∉ s.data) : strContains s pat = false := by
  unfold strContains
  rw [hd]
  cases h : chListContains s.data (p :: ps) with
  | false => rfl
  | true => exact absurd (chListContains_head_mem p ps s.data h) hp

theorem capName_not_mem (i : Nat) (p : Char) (hc : p ≠ 'c') (hx : p ≠ 'x') :
    p ∉ (capName i).data := by
  intro hm
  rcases capName_chars i p hm with rfl | rfl
  · exact hc rfl
  · exact hx rfl

theorem capName_not_error (i : Nat) : strContains (capName i) "error" = false :=
  strContains_false_of_head _ _ 'e' ['r', 'r', 'o', 'r'] rfl
    (capName_not_mem i 'e' (by decide) (by decide))

theorem capName_not_exception (i : Nat) :
    strContains (capName i) "exception" = false :=
  strContains_false_of_head _ _ 'e' ['x', 'c', 'e', 'p', 't', 'i', 'o', 'n'] rfl
    (capName_not_mem i 'e' (by decide) (by decide))

theorem capName_not_failed (i : Nat) : strContains (capName i) "failed" = false :=
  strContains_false_of_head _ _ 'f' ['a', 'i', 'l', 'e', 'd'] rfl
    (capName_not_mem i 'f' (by decide) (by decide))

theorem capName_not_invalid (i : Nat) : strContains (capName i) "invalid" = false :=
  strContains_false_of_head _ _ 'i' ['n', 'v', 'a', 'l', 'i', 'd'] rfl
    (capName_not_mem i 'i' (by decide) (by decide))

theorem capName_inj {i j : Nat} (h : capName i = capName j) : i = j := by
  have hd : 'c' :: List.replicate i 'x' = 'c' :: List.replicate j 'x' :=
    congrArg String.data h
  have hr : List.replicate i 'x' = List.replicate j 'x' := by
    injection hd
  have hl := congrArg List.length hr
  simpa using hl

theorem capName_lookup (i : Nat) :
    ∀ ks : List Nat, i ∈ ks →
      ((ks.map (fun j => (capName j, capNode j))).lookup (capName i)) =
        some (capNode i) := by
  intro ks
  induction ks with
  | nil => intro h; cases h
  | cons j t ih =>
    intro hm
    by_cases hij : i = j
    · subst hij
      simp [List.lookup]
    · have hne : capName i ≠ capName j := fun h => hij (capName_inj h)
      simp only [List.map_cons, List.lookup, beq_eq_false_iff_ne.mpr hne]
      exact ih (by
        rcases List.mem_cons.mp hm with h | h
        · exact absurd h hij
        · exact h)

theorem capComps_lookup (i : Nat) (hi : i ∈ List.range 500) :
    capComps.lookup (capName i) = some (capNode i) :=
  capName_lookup i (List.range 500) hi

theorem capComps_length : capComps.length = 500 := by
  simp [capComps]

theorem oopCount_cap : oopCount capComps = 500 := by
  unfold oopCount
  rw [List.filter_eq_self.mpr, capComps_length]
  intro e he
  simp only [capComps, List.mem_map] at he
  obtain ⟨j, hj, rfl⟩ := he
  simp [capNode]

theorem funcCount_cap : funcCount capComps = 0 := by
  have h : capComps.filter (fun e =>
      ["function", "async_function", "method"].contains e.2.component_type) = [] := by
    rw [List.filter_eq_nil_iff]
    intro e he
    simp only [capComps, List.mem_map] at he
    obtain ⟨j, hj, rfl⟩ := he
    simp [capNode]
  unfold funcCount
  rw [h]
  rfl

theorem dvt_cap : determine_valid_types capComps =
    ["class", "interface", "struct", "enum", "record", "abstract class",
      "annotation"] := by
  simp only [determine_valid_types]
  rw [oopCount_cap, funcCount_cap, capComps_length]
  norm_num

theorem scoreCandidate_cap_isSome (i : Nat) (hi : i ∈ List.range 500) :
    (scoreCandidate capComps (determine_valid_types capComps) capGraph
      (capName i)).isSome = true := by
  have hlook := capComps_lookup i hi
  have htrim : ¬(pyTrim (capName i) = "") := by
    rw [pyTrim_cap]; exact capName_ne_empty i
  simp [scoreCandidate, htrim, pyToLower_cap, capName_not_error,
    capName_not_exception, capName_not_failed, capName_not_invalid, hlook,
    dvt_cap, capNode]

theorem length_filterMap_of_isSome {α β : Type} (f : α → Option β) :
    ∀ l : List α, (∀ x ∈ l, (f x).isSome = true) →
      (l.filterMap f).length = l.length := by
  intro l
  induction l with
  | nil => intro _; rfl
  | cons x t ih =>
    intro h
    obtain ⟨y, hy⟩ := Option.isSome_iff_exists.mp (h x (List.mem_cons_self x t))
    rw [List.filterMap_cons_some hy, List.length_cons, List.length_cons,
      ih (fun a ha => h a (List.mem_cons_of_mem x ha))]

theorem capGraph_adj_empty : ∀ e ∈ capGraph, e.2 = [] := by
  intro e he
  simp only [capGraph, List.mem_map] at he
  obtain ⟨j, hj, rfl⟩ := he
  rfl

theorem resolve_cap : resolve_cycles capGraph = capGraph :=
  noEdge_resolve capGraph capGraph_adj_empty

theorem keysOf_cap : keysOf capGraph = (List.range 500).map capName := by
  simp [keysOf, capGraph, List.map_map]

theorem cap_all_isSome : ∀ x ∈ (List.range 500).map capName,
    ((scoreCandidate capComps (determine_valid_types capComps) capGraph)
      x).isSome = true := by
  intro x hx
  obtain ⟨i, hi, rfl⟩ := List.mem_map.mp hx
  exact scoreCandidate_cap_isSome i hi

theorem glnFirstScored_cap_length :
    (glnFirstScored capGraph capComps).length = 500 := by
  simp only [glnFirstScored, filter_and_score_nodes]
  rw [resolve_cap, keysOf_cap,
    length_filterMap_of_isSome _ _ cap_all_isSome]
  simp

theorem glnPruned_cap : glnPruned capGraph = (List.range 500).map capName := by
  simp only [glnPruned]
  rw [resolve_cap, keysOf_cap]
  apply List.filter_eq_self.mpr
  intro a _
  have hany : (capGraph.any fun e => e.2.contains a) = false := by
    rw [List.any_eq_false]
    intro e he
    rw [capGraph_adj_empty e he]
    simp
  rw [hany]
  rfl

theorem glnPrunedScored_cap_length :
    (glnPrunedScored capGraph capComps).length = 500 := by
  simp only [glnPrunedScored, filter_and_score_nodes]
  rw [resolve_cap, glnPruned_cap,
    length_filterMap_of_isSome _ _ cap_all_isSome]
  simp

/-- C6: whenever the first scoring round of `get_leaf_nodes` yields at
least 400 candidates, the selector prunes to the nodes nobody depends on
and re-scores them (`glnPrunedScored`), and if that round still yields at
least 400 candidates, the returned list is the score-sorted 400-element
cap of the pruned scored list: it has exactly 400 entries and the scored
list it projects ids from is sorted in descending score order
(topo_sort.py lines 468-494). -/
theorem C6_candidate_cap (g : Graph) (components : Registry)
    (h1 : 400 ≤ (glnFirstScored g components).length)
    (h2 : 400 ≤ (glnPrunedScored g components).length) :
    get_leaf_nodes g components =
      (sortByScoreDesc
        ((sortByScoreDesc (glnPrunedScored g components)).take 400)).map
        Prod.fst ∧
    (get_leaf_nodes g components).length = 400 ∧
    (sortByScoreDesc
      ((sortByScoreDesc (glnPrunedScored g components)).take 400)).Pairwise
        (fun a b => b.2 ≤ a.2) := by
  have hlen :
      ((sortByScoreDesc (glnPrunedScored g components)).take 400).length = 400 := by
    rw [List.length_take, sortByScoreDesc_length]
    exact Nat.min_eq_left h2
  have hne :
      ¬(((sortByScoreDesc (glnPrunedScored g components)).take 400).isEmpty
        = true) := by
    rw [List.isEmpty_iff]
    intro hE
    rw [hE] at hlen
    simp at hlen
  simp only [get_leaf_nodes]
  rw [if_pos h1, if_pos h2, if_neg hne]
  refine ⟨rfl, ?_, sortByScoreDesc_sorted _⟩
  rw [List.length_map, sortByScoreDesc_length, hlen]

/-- C6 witness: a 500-node edge-free graph of class components hits the
cap: both scoring rounds keep all 500 candidates and the selector returns
exactly 400 ids. -/
theorem C6_witness :
    400 ≤ (glnFirstScored capGraph capComps).length ∧
    400 ≤ (glnPrunedScored capGraph capComps).length ∧
    (get_leaf_nodes capGraph capComps).length = 400 := by
  have h1 : 400 ≤ (glnFirstScored capGraph capComps).length := by
    rw [glnFirstScored_cap_length]; norm_num
  have h2 : 400 ≤ (glnPrunedScored capGraph capComps).length := by
    rw [glnPrunedScored_cap_length]; norm_num
  exact ⟨h1, h2, (C6_candidate_cap capGraph capComps h1 h2).2.1⟩
